import Mathlib

/-!
Shallow embedding of the recharts scale utilities
`src/util/scale/getNiceTickValues.ts` and `src/util/scale/util/arithmetic.ts`.

Modelling conventions:
* JavaScript numbers are modelled as exact rationals (`ℚ`).  Infinite axis
  bounds, which the two entry points treat by an explicit branch, are modelled
  by the three-constructor type `ENum`.  `NaN` inputs are out of contract
  (spec section 7) and are not modelled; the one operation that could produce
  `NaN` from in-contract input (`a % b` with `b = 0`) is never reached on the
  inputs the theorems below quantify over.
* `tickCount` is modelled as `ℤ`, following the spec's data model
  ("TickCount: a positive integer hint").
* The self-recursion of `calculateStep` on `correctionFactor` is modelled with
  an explicit fuel parameter; `none` means the recursion did not reach its
  base case within the given fuel, so termination of the source recursion at
  an input is exactly `∃ fuel, (… fuel).isSome`.
* `Math.floor` / `Math.ceil` are `Int.floor` / `Int.ceil`; the JavaScript
  remainder `a % b` (sign of the dividend) is `jsMod`; `Math.round` is
  `jsRound`; `Math.floor (Math.log10 v)` is `floorLog10`, implemented by an
  exact scan over exponents and characterised by `floorLog10_spec`.
-/

/-- Scan upward from exponent `k`: the largest `j ≥ k` reachable within `fuel`
steps such that `10 ^ i ≤ q` for every `i ≤ j` tried, i.e. the largest
exponent whose power of ten still fits below `q`. -/
def findExpAux (q : ℚ) : ℕ → ℕ → ℕ
  | k, 0 => k
  | k, fuel + 1 => if (10 : ℚ) ^ (k + 1) ≤ q then findExpAux q (k + 1) fuel else k

/-- Scan upward from exponent `k`: the smallest `j ≥ k` (within `fuel` steps)
with `r ≤ 10 ^ j`. -/
def findCexpAux (r : ℚ) : ℕ → ℕ → ℕ
  | k, 0 => k
  | k, fuel + 1 => if (10 : ℚ) ^ k < r then findCexpAux r (k + 1) fuel else k

/-- `Math.floor (Math.log10 q)` for `q > 0`, computed exactly: for `q ≥ 1` the
largest `k` with `10 ^ k ≤ q`, otherwise minus the smallest `k` with
`q⁻¹ ≤ 10 ^ k`.  The fuel `num.natAbs` is always sufficient since
`n ≤ 10 ^ n`; see `floorLog10_spec`.  (Junk value on `q ≤ 0`, where the
source's `Math.log10` would give `NaN`/`-Infinity`.) -/
def floorLog10 (q : ℚ) : ℤ :=
  if 1 ≤ q then (findExpAux q 0 q.num.natAbs : ℤ)
  else -(findCexpAux q⁻¹ 0 (q⁻¹).num.natAbs : ℤ)

/-- `getDigitCount` from arithmetic.ts: `1` at `0`, else
`Math.floor(Math.log10(Math.abs value)) + 1`. -/
def getDigitCount (value : ℚ) : ℤ :=
  if value = 0 then 1 else floorLog10 |value| + 1

/-- The loop body of `rangeStep` from arithmetic.ts: push `num` and advance by
`step` while `num < stop`, for at most `fuel` iterations. -/
def rangeStepAux (stop step : ℚ) : ℚ → ℕ → List ℚ
  | _, 0 => []
  | num, fuel + 1 =>
    if num < stop then num :: rangeStepAux stop step (num + step) fuel else []

/-- `rangeStep` from arithmetic.ts: the sequence `start, start+step, …` of
values strictly below `stop`, hard-capped at 100000 elements
(`while (num < end && i < 100000)`). -/
def rangeStep (start stop step : ℚ) : List ℚ :=
  rangeStepAux stop step start 100000

/-- `10 ** (digitCount - 1)` as computed inside `getFormatStep`. -/
def pow10Of (roughStep : ℚ) : ℚ := (10 : ℚ) ^ (getDigitCount roughStep - 1)

/-- `stepRatioScale = digitCount !== 1 ? 0.05 : 0.1` from `getFormatStep`. -/
def stepRatioScaleOf (roughStep : ℚ) : ℚ :=
  if getDigitCount roughStep ≠ 1 then 0.05 else 0.1

/-- `getFormatStep` from getNiceTickValues.ts.  Over exact rationals the
source guard `roughStep <= 0 || !Number.isFinite(roughStep)` collapses to
`roughStep ≤ 0`. -/
def getFormatStep (roughStep : ℚ) (allowDecimals : Bool) (correctionFactor : ℕ) : ℚ :=
  if roughStep ≤ 0 then 0
  else
    let stepRatio := roughStep / pow10Of roughStep
    let stepRatioAmend := ⌈stepRatio / stepRatioScaleOf roughStep⌉ + (correctionFactor : ℤ)
    let niceStep := (stepRatioAmend : ℚ) * stepRatioScaleOf roughStep * pow10Of roughStep
    if allowDecimals then niceStep else ((⌈niceStep⌉ : ℤ) : ℚ)

/-- Modelled from the spec: the `range` helper imported from `./util/utils` is
not among the provided sources.  Per spec section 4.4 ("Generate `tickCount`
consecutive multiples of `step`" from `range(0, tickCount)`) it is the
half-open integer range `[s, t)`, as in lodash/d3. -/
def range (s t : ℤ) : List ℤ :=
  (List.range (t - s).toNat).map fun n => s + (n : ℤ)

/-- `getTickOfSingleValue` from getNiceTickValues.ts.  `Number.isInteger v` is
`v.den = 1`; `Math.floor((tickCount - 1) / 2)` is the floor of the rational
quotient.  The pair `sm` is `(step, middle)` after the branch ladder. -/
def getTickOfSingleValue (value : ℚ) (tickCount : ℤ) (allowDecimals : Bool) : List ℚ :=
  if tickCount ≤ 1 then [value]
  else
    let sm : ℚ × ℚ :=
      if allowDecimals = true ∧ |value| < 1 ∧ value ≠ 0 then
        let step := (10 : ℚ) ^ (getDigitCount value - 1)
        (step, ((⌊value / step⌋ : ℤ) : ℚ) * step)
      else if allowDecimals = false ∨ value.den = 1 then
        (1, ((⌊value⌋ : ℤ) : ℚ))
      else if value = 0 then
        (1, ((⌊((tickCount : ℚ) - 1) / 2⌋ : ℤ) : ℚ))
      else (1, value)
    let middleIndex : ℤ := ⌊((tickCount : ℚ) - 1) / 2⌋
    (range 0 tickCount).map fun n => sm.2 + ((n : ℚ) - (middleIndex : ℚ)) * sm.1

/-- Truncation toward zero, the rounding used by the JavaScript `%` operator. -/
def jsTrunc (q : ℚ) : ℤ := if 0 ≤ q then ⌊q⌋ else ⌈q⌉

/-- JavaScript remainder `a % b`: `a - b * trunc (a / b)` for `b ≠ 0`.
(For `b = 0` the source would produce `NaN`; that case is outside the
modelled contract and never reached by the theorems below.) -/
def jsMod (a b : ℚ) : ℚ := a - b * ((jsTrunc (a / b) : ℤ) : ℚ)

/-- `Math.round`: round half toward positive infinity. -/
def jsRound (q : ℚ) : ℚ := ((⌊q + 1 / 2⌋ : ℤ) : ℚ)

/-- The rough step `(max - min) / (tickCount - 1)` of `calculateStep`. -/
def roughStepOf (mn mx : ℚ) (tickCount : ℤ) : ℚ := (mx - mn) / ((tickCount : ℚ) - 1)

/-- The `step` chosen by one round of `calculateStep`. -/
def stepOf (mn mx : ℚ) (tickCount : ℤ) (allowDecimals : Bool) (cf : ℕ) : ℚ :=
  getFormatStep (roughStepOf mn mx tickCount) allowDecimals cf

/-- The `middle` anchor of `calculateStep`: `0` when the interval straddles
zero, otherwise the midpoint aligned down to a multiple of `step` via the
double-mod `((middle % step) + step) % step`. -/
def middleOf (mn mx step : ℚ) : ℚ :=
  if mn ≤ 0 ∧ 0 ≤ mx then 0
  else
    let mid := (mn + mx) / 2
    mid - jsMod (jsMod mid step + step) step

/-- `belowCount = Math.ceil((middle - min) / step)` of `calculateStep`. -/
def belowCountOf (mn mx step : ℚ) : ℤ := ⌈(middleOf mn mx step - mn) / step⌉

/-- `upCount = Math.ceil((max - middle) / step)` of `calculateStep`. -/
def upCountOf (mn mx step : ℚ) : ℤ := ⌈(mx - middleOf mn mx step) / step⌉

/-- `scaleCount = belowCount + upCount + 1` of `calculateStep`. -/
def scaleCountOf (mn mx step : ℚ) : ℤ :=
  belowCountOf mn mx step + upCountOf mn mx step + 1

/-- Result record of `calculateStep`. -/
structure StepResult where
  step : ℚ
  tickMin : ℚ
  tickMax : ℚ
  deriving DecidableEq

/-- `calculateStep` from getNiceTickValues.ts with explicit fuel for its
self-recursion on `correctionFactor`.  For finite rational bounds the source
guard `!Number.isFinite((max - min) / (tickCount - 1))` holds exactly when
`tickCount = 1` (division by zero). -/
def calculateStepAux (mn mx : ℚ) (tickCount : ℤ) (allowDecimals : Bool) : ℕ → ℕ → Option StepResult
  | _, 0 => none
  | cf, fuel + 1 =>
    if tickCount = 1 then some ⟨0, 0, 0⟩
    else
      let step := stepOf mn mx tickCount allowDecimals cf
      let middle := middleOf mn mx step
      let belowCount := belowCountOf mn mx step
      let upCount := upCountOf mn mx step
      let scaleCount := scaleCountOf mn mx step
      if tickCount < scaleCount then
        calculateStepAux mn mx tickCount allowDecimals (cf + 1) fuel
      else if scaleCount < tickCount then
        if 0 < mx then
          some ⟨step, middle - (belowCount : ℚ) * step,
            middle + ((upCount + (tickCount - scaleCount) : ℤ) : ℚ) * step⟩
        else
          some ⟨step, middle - ((belowCount + (tickCount - scaleCount) : ℤ) : ℚ) * step,
            middle + (upCount : ℚ) * step⟩
      else
        some ⟨step, middle - (belowCount : ℚ) * step, middle + (upCount : ℚ) * step⟩

/-- A JavaScript number that may be an infinite axis bound. -/
inductive ENum where
  | negInf : ENum
  | fin : ℚ → ENum
  | posInf : ENum
  deriving DecidableEq

/-- JavaScript `<` on possibly-infinite numbers. -/
def ENum.blt : ENum → ENum → Bool
  | .negInf, .negInf => false
  | .negInf, _ => true
  | _, .negInf => false
  | .posInf, _ => false
  | .fin a, .fin b => decide (a < b)
  | .fin _, .posInf => true

/-- `Number.isFinite((max - min) / (tickCount - 1))` decided over `ENum`
bounds: the quotient is finite iff both bounds are finite and the divisor is
nonzero (over exact rationals a finite / nonzero-finite quotient cannot
overflow; any infinite operand makes `max - min`, hence the quotient,
non-finite). -/
def roughStepIsFinite : ENum → ENum → ℤ → Bool
  | .fin _, .fin _, tickCount => decide (tickCount ≠ 1)
  | _, _, _ => false

/-- `calculateStep` on possibly-infinite bounds: with an infinite bound the
rough step is non-finite, so the source guard returns the zero sentinel
before any recursion; with finite bounds it is `calculateStepAux` (whose
guard covers the remaining `tickCount = 1` case). -/
def calculateStepE (minE maxE : ENum) (tickCount : ℤ) (allowDecimals : Bool)
    (cf fuel : ℕ) : Option StepResult :=
  match minE, maxE with
  | .fin a, .fin b => calculateStepAux a b tickCount allowDecimals cf fuel
  | _, _ => some ⟨0, 0, 0⟩

/-- `getValidInterval` from getNiceTickValues.ts: swap when `min > max`. -/
def getValidIntervalE (minE maxE : ENum) : ENum × ENum :=
  if ENum.blt maxE minE then (maxE, minE) else (minE, maxE)

/-- `getNiceTickValues` from getNiceTickValues.ts, with the fuel of
`calculateStepAux` threaded through (the only possibly-divergent callee).
The final wildcard match arm is unreachable: when the normalized lower bound
is not `-∞` and the upper is not `+∞`, both bounds are finite. -/
def getNiceTickValuesAux (minE maxE : ENum) (tickCount : ℤ) (allowDecimals : Bool)
    (fuel : ℕ) : Option (List ENum) :=
  let count := max tickCount 2
  let cor := getValidIntervalE minE maxE
  if cor.1 = ENum.negInf ∨ cor.2 = ENum.posInf then
    let values :=
      if cor.2 = ENum.posInf then
        cor.1 :: ((range 0 (tickCount - 1)).map fun _ => ENum.posInf)
      else
        ((range 0 (tickCount - 1)).map fun _ => ENum.negInf) ++ [cor.2]
    some (if ENum.blt maxE minE then values.reverse else values)
  else
    match cor.1, cor.2 with
    | ENum.fin cormin, ENum.fin cormax =>
      if cormin = cormax then
        some ((getTickOfSingleValue cormin tickCount allowDecimals).map ENum.fin)
      else
        (calculateStepAux cormin cormax count allowDecimals 0 fuel).map fun r =>
          let values := (rangeStep r.tickMin (r.tickMax + 0.1 * r.step) r.step).map ENum.fin
          if ENum.blt maxE minE then values.reverse else values
    | _, _ => none

/-- `getTickValuesFixedDomain` from getNiceTickValues.ts.  It never calls the
recursive solver, so it needs no fuel.  The final wildcard arm is unreachable
as in `getNiceTickValuesAux`. -/
def getTickValuesFixedDomain (minE maxE : ENum) (tickCount : ℤ)
    (allowDecimals : Bool) : List ENum :=
  let cor := getValidIntervalE minE maxE
  if cor.1 = ENum.negInf ∨ cor.2 = ENum.posInf then [minE, maxE]
  else
    match cor.1, cor.2 with
    | ENum.fin cormin, ENum.fin cormax =>
      if cormin = cormax then [ENum.fin cormin]
      else
        let count := max tickCount 2
        let step := getFormatStep ((cormax - cormin) / ((count : ℚ) - 1)) allowDecimals 0
        let values := rangeStep cormin cormax step ++ [cormax]
        let values2 := if allowDecimals = false then values.map jsRound else values
        (if ENum.blt maxE minE then values2.reverse else values2).map ENum.fin
    | _, _ => []

/-! ### Lemmas about `rangeStep` -/

theorem rangeStepAux_succ (stop step num : ℚ) (fuel : ℕ) :
    rangeStepAux stop step num (fuel + 1) =
      if num < stop then num :: rangeStepAux stop step (num + step) fuel else [] := rfl

theorem rangeStepAux_length_le (stop step : ℚ) :
    ∀ fuel num, (rangeStepAux stop step num fuel).length ≤ fuel := by
  intro fuel
  induction fuel with
  | zero => intro num; simp [rangeStepAux]
  | succ n ih =>
    intro num
    rw [rangeStepAux_succ]
    split
    · simp only [List.length_cons]
      exact Nat.succ_le_succ (ih (num + step))
    · simp

theorem rangeStepAux_getD (stop step : ℚ) :
    ∀ fuel num i, i < (rangeStepAux stop step num fuel).length →
      (rangeStepAux stop step num fuel).getD i 0 = num + i * step ∧ num + i * step < stop := by
  intro fuel
  induction fuel with
  | zero => intro num i h; simp [rangeStepAux] at h
  | succ n ih =>
    intro num i h
    rw [rangeStepAux_succ] at h ⊢
    by_cases hlt : num < stop
    · rw [if_pos hlt] at h ⊢
      cases i with
      | zero => simpa using hlt
      | succ j =>
        simp only [List.length_cons] at h
        have hj := ih (num + step) j (Nat.lt_of_succ_lt_succ h)
        have e : num + ((j + 1 : ℕ) : ℚ) * step = num + step + (j : ℚ) * step := by
          push_cast; ring
        refine ⟨?_, ?_⟩
        · rw [List.getD_cons_succ, hj.1, e]
        · rw [e]; exact hj.2
    · rw [if_neg hlt] at h
      simp at h

theorem rangeStepAux_stop_spec (stop step : ℚ) :
    ∀ fuel num, (rangeStepAux stop step num fuel).length < fuel →
      ¬(num + (rangeStepAux stop step num fuel).length * step < stop) := by
  intro fuel
  induction fuel with
  | zero => intro num h; exact absurd h (Nat.not_lt_zero _)
  | succ n ih =>
    intro num h
    rw [rangeStepAux_succ] at h ⊢
    by_cases hlt : num < stop
    · rw [if_pos hlt] at h ⊢
      simp only [List.length_cons] at h ⊢
      have hn := ih (num + step) (Nat.lt_of_succ_lt_succ h)
      intro hc
      apply hn
      calc num + step + ((rangeStepAux stop step (num + step) n).length : ℚ) * step
          = num + (((rangeStepAux stop step (num + step) n).length + 1 : ℕ) : ℚ) * step := by
            push_cast; ring
        _ < stop := hc
    · rw [if_neg hlt]
      simpa using hlt

theorem mem_rangeStepAux (stop step : ℚ) :
    ∀ fuel num x, x ∈ rangeStepAux stop step num fuel →
      (∃ i : ℕ, i < fuel ∧ x = num + i * step) ∧ x < stop := by
  intro fuel
  induction fuel with
  | zero => intro num x h; simp [rangeStepAux] at h
  | succ n ih =>
    intro num x h
    rw [rangeStepAux_succ] at h
    by_cases hlt : num < stop
    · rw [if_pos hlt] at h
      rcases List.mem_cons.1 h with rfl | htail
      · exact ⟨⟨0, Nat.succ_pos n, by simp⟩, hlt⟩
      · obtain ⟨⟨i, hi, rfl⟩, hx⟩ := ih (num + step) _ htail
        exact ⟨⟨i + 1, Nat.succ_lt_succ hi, by push_cast; ring⟩, hx⟩
    · rw [if_neg hlt] at h
      simp at h

theorem rangeStepAux_mem (stop step : ℚ) (hstep : 0 < step) :
    ∀ fuel num (i : ℕ), i < fuel → num + i * step < stop →
      num + i * step ∈ rangeStepAux stop step num fuel := by
  intro fuel
  induction fuel with
  | zero => intro num i h; omega
  | succ n ih =>
    intro num i hi hlt
    have hnum : num < stop := by
      have : (0 : ℚ) ≤ (i : ℚ) * step := mul_nonneg (by positivity) hstep.le
      linarith
    rw [rangeStepAux_succ, if_pos hnum]
    cases i with
    | zero => simp
    | succ j =>
      have e : num + ((j + 1 : ℕ) : ℚ) * step = num + step + (j : ℚ) * step := by
        push_cast; ring
      rw [e]
      refine List.mem_cons_of_mem _ (ih (num + step) j (Nat.lt_of_succ_lt_succ hi) ?_)
      rw [← e]; exact hlt

theorem mem_rangeStep (start stop step x : ℚ) (h : x ∈ rangeStep start stop step) :
    (∃ i : ℕ, i < 100000 ∧ x = start + i * step) ∧ x < stop :=
  mem_rangeStepAux stop step 100000 start x h

theorem rangeStep_mem (start stop step : ℚ) (hstep : 0 < step) (i : ℕ) (hi : i < 100000)
    (h : start + i * step < stop) : start + i * step ∈ rangeStep start stop step :=
  rangeStepAux_mem stop step hstep 100000 start i hi h

theorem rangeStep_head (start stop step : ℚ) (h : start < stop) :
    (rangeStep start stop step).head? = some start := by
  show (rangeStepAux stop step start (99999 + 1)).head? = some start
  rw [rangeStepAux_succ, if_pos h]
  rfl

/-! ### `floorLog10` computes the integer part of the base-10 logarithm -/

theorem findExpAux_spec (q : ℚ) :
    ∀ fuel k, (10 : ℚ) ^ k ≤ q → q < (10 : ℚ) ^ (k + fuel + 1) →
      (10 : ℚ) ^ findExpAux q k fuel ≤ q ∧ q < (10 : ℚ) ^ (findExpAux q k fuel + 1) := by
  intro fuel
  induction fuel with
  | zero =>
    intro k h1 h2
    exact ⟨h1, by simpa using h2⟩
  | succ n ih =>
    intro k h1 h2
    rw [show findExpAux q k (n + 1)
        = if (10 : ℚ) ^ (k + 1) ≤ q then findExpAux q (k + 1) n else k from rfl]
    split
    · next hle =>
      exact ih (k + 1) hle (by rw [show k + 1 + n + 1 = k + (n + 1) + 1 from by omega]; exact h2)
    · next hgt => exact ⟨h1, not_le.1 hgt⟩

theorem findCexpAux_le (r : ℚ) :
    ∀ fuel k, r ≤ (10 : ℚ) ^ (k + fuel) → r ≤ (10 : ℚ) ^ findCexpAux r k fuel := by
  intro fuel
  induction fuel with
  | zero => intro k h; simpa using h
  | succ n ih =>
    intro k h
    rw [show findCexpAux r k (n + 1)
        = if (10 : ℚ) ^ k < r then findCexpAux r (k + 1) n else k from rfl]
    split
    · exact ih (k + 1) (by rw [show k + 1 + n = k + (n + 1) from by omega]; exact h)
    · next hge => exact not_lt.1 hge

theorem findCexpAux_low (r : ℚ) :
    ∀ fuel k, findCexpAux r k fuel = k ∨
      ∃ j : ℕ, findCexpAux r k fuel = j + 1 ∧ (10 : ℚ) ^ j < r := by
  intro fuel
  induction fuel with
  | zero => intro k; exact Or.inl rfl
  | succ n ih =>
    intro k
    rw [show findCexpAux r k (n + 1)
        = if (10 : ℚ) ^ k < r then findCexpAux r (k + 1) n else k from rfl]
    split
    · next hlt =>
      rcases ih (k + 1) with h | ⟨j, hj, hjr⟩
      · exact Or.inr ⟨k, h, hlt⟩
      · exact Or.inr ⟨j, hj, hjr⟩
    · exact Or.inl rfl

theorem rat_le_num (q : ℚ) (hq : 0 < q) : q ≤ (q.num : ℚ) := by
  have hden1 : (1 : ℚ) ≤ (q.den : ℚ) := by exact_mod_cast q.den_pos
  have hd : (0 : ℚ) < (q.den : ℚ) := by linarith
  have h : (q.num : ℚ) = q * (q.den : ℚ) := (div_eq_iff hd.ne').1 (Rat.num_div_den q)
  nlinarith [h, hden1, hq]

theorem rat_lt_pow10_num (q : ℚ) (hq : 0 < q) : q < (10 : ℚ) ^ q.num.natAbs := by
  have h1 : q ≤ (q.num : ℚ) := rat_le_num q hq
  have hnum : 0 < q.num := Rat.num_pos.2 hq
  have h2 : ((q.num.natAbs : ℕ) : ℚ) = (q.num : ℚ) := by
    rw [Int.cast_natAbs]
    exact_mod_cast abs_of_nonneg hnum.le
  have h3 : ((q.num.natAbs : ℕ) : ℚ) < (10 : ℚ) ^ q.num.natAbs := by
    exact_mod_cast Nat.lt_pow_self (by norm_num) q.num.natAbs
  calc q ≤ (q.num : ℚ) := h1
    _ = ((q.num.natAbs : ℕ) : ℚ) := h2.symm
    _ < (10 : ℚ) ^ q.num.natAbs := h3

/-- `floorLog10` is the floor of the base-10 logarithm: the unique integer `e`
with `10 ^ e ≤ q < 10 ^ (e + 1)`.  This characterises the embedding of the
source's `Math.floor(Math.log10 q)` for positive `q`. -/
theorem floorLog10_spec (q : ℚ) (hq : 0 < q) :
    (10 : ℚ) ^ floorLog10 q ≤ q ∧ q < (10 : ℚ) ^ (floorLog10 q + 1) := by
  unfold floorLog10
  split
  · next h1 =>
    have hfuel : q < (10 : ℚ) ^ (0 + q.num.natAbs + 1) := by
      calc q < (10 : ℚ) ^ q.num.natAbs := rat_lt_pow10_num q hq
        _ ≤ (10 : ℚ) ^ (0 + q.num.natAbs + 1) := by
            apply pow_le_pow_right₀ (by norm_num)
            omega
    have h := findExpAux_spec q q.num.natAbs 0 (by simpa using h1) hfuel
    constructor
    · rw [zpow_natCast]
      exact h.1
    · rw [show ((findExpAux q 0 q.num.natAbs : ℕ) : ℤ) + 1
          = ((findExpAux q 0 q.num.natAbs + 1 : ℕ) : ℤ) from by push_cast; ring, zpow_natCast]
      exact h.2
  · next h1 =>
    have hq1 : q < 1 := not_le.1 h1
    have hr : 1 < q⁻¹ := one_lt_inv_iff₀.2 ⟨hq, hq1⟩
    have hr0 : 0 < q⁻¹ := inv_pos.2 hq
    have hfuel : q⁻¹ ≤ (10 : ℚ) ^ (0 + (q⁻¹).num.natAbs) := by
      simpa using (rat_lt_pow10_num q⁻¹ hr0).le
    have hle := findCexpAux_le q⁻¹ (q⁻¹).num.natAbs 0 hfuel
    set c := findCexpAux q⁻¹ 0 (q⁻¹).num.natAbs with hc
    rcases findCexpAux_low q⁻¹ (q⁻¹).num.natAbs 0 with h0 | ⟨j, hj, hjr⟩
    · rw [← hc] at h0
      rw [h0] at hle
      simp only [pow_zero] at hle
      exact absurd hle (not_le.2 hr)
    · rw [← hc] at hj
      constructor
      · rw [zpow_neg, zpow_natCast]
        calc ((10 : ℚ) ^ c)⁻¹ ≤ (q⁻¹)⁻¹ := inv_anti₀ hr0 hle
          _ = q := inv_inv q
      · have he : -((c : ℕ) : ℤ) + 1 = -((j : ℕ) : ℤ) := by
          rw [hj]; push_cast; ring
        rw [he, zpow_neg, zpow_natCast]
        calc q = (q⁻¹)⁻¹ := (inv_inv q).symm
          _ < ((10 : ℚ) ^ j)⁻¹ := inv_strictAnti₀ (by positivity) hjr

/-! ### Lemmas about `getFormatStep` -/

theorem pow10Of_pos (r : ℚ) : 0 < pow10Of r := zpow_pos (by norm_num) _

theorem stepRatioScaleOf_pos (r : ℚ) : 0 < stepRatioScaleOf r := by
  unfold stepRatioScaleOf
  split <;> norm_num

theorem getFormatStep_eq (r : ℚ) (ad : Bool) (cf : ℕ) (hr : 0 < r) :
    getFormatStep r ad cf =
      if ad then
        ((⌈r / pow10Of r / stepRatioScaleOf r⌉ + (cf : ℤ) : ℤ) : ℚ)
          * stepRatioScaleOf r * pow10Of r
      else
        ((⌈((⌈r / pow10Of r / stepRatioScaleOf r⌉ + (cf : ℤ) : ℤ) : ℚ)
          * stepRatioScaleOf r * pow10Of r⌉ : ℤ) : ℚ) := by
  unfold getFormatStep
  rw [if_neg (not_le.2 hr)]

theorem amend_pos (r : ℚ) (cf : ℕ) (hr : 0 < r) :
    1 ≤ ⌈r / pow10Of r / stepRatioScaleOf r⌉ + (cf : ℤ) := by
  have h1 : 0 < r / pow10Of r / stepRatioScaleOf r :=
    div_pos (div_pos hr (pow10Of_pos r)) (stepRatioScaleOf_pos r)
  have h2 : 0 < ⌈r / pow10Of r / stepRatioScaleOf r⌉ := Int.ceil_pos.2 h1
  omega

theorem getFormatStep_pos (r : ℚ) (ad : Bool) (cf : ℕ) (hr : 0 < r) :
    0 < getFormatStep r ad cf := by
  rw [getFormatStep_eq r ad cf hr]
  have hS := stepRatioScaleOf_pos r
  have hP := pow10Of_pos r
  have hA := amend_pos r cf hr
  have hnice : 0 < ((⌈r / pow10Of r / stepRatioScaleOf r⌉ + (cf : ℤ) : ℤ) : ℚ)
      * stepRatioScaleOf r * pow10Of r := by
    apply mul_pos (mul_pos _ hS) hP
    exact_mod_cast lt_of_lt_of_le zero_lt_one hA
  split
  · exact hnice
  · exact lt_of_lt_of_le hnice (Int.le_ceil _)

theorem getFormatStep_ge (r : ℚ) (ad : Bool) (cf : ℕ) (hr : 0 < r) :
    r ≤ getFormatStep r ad cf := by
  rw [getFormatStep_eq r ad cf hr]
  have hS := stepRatioScaleOf_pos r
  have hP := pow10Of_pos r
  set x := r / pow10Of r / stepRatioScaleOf r with hx
  have hrx : r = x * stepRatioScaleOf r * pow10Of r := by
    rw [hx]
    field_simp
    ring
  have hxle : x ≤ ((⌈x⌉ + (cf : ℤ) : ℤ) : ℚ) := by
    push_cast
    have h1 := Int.le_ceil x
    have h2 : (0 : ℚ) ≤ (cf : ℚ) := by positivity
    linarith
  have hmain : r ≤ ((⌈x⌉ + (cf : ℤ) : ℤ) : ℚ) * stepRatioScaleOf r * pow10Of r := by
    calc r = x * stepRatioScaleOf r * pow10Of r := hrx
      _ ≤ ((⌈x⌉ + (cf : ℤ) : ℤ) : ℚ) * stepRatioScaleOf r * pow10Of r := by
          apply mul_le_mul_of_nonneg_right _ hP.le
          exact mul_le_mul_of_nonneg_right hxle hS.le
  split
  · exact hmain
  · exact le_trans hmain (Int.le_ceil _)

theorem getFormatStep_cf_lb (r : ℚ) (ad : Bool) (cf : ℕ) (hr : 0 < r) :
    (cf : ℚ) * (stepRatioScaleOf r * pow10Of r) ≤ getFormatStep r ad cf := by
  rw [getFormatStep_eq r ad cf hr]
  have hS := stepRatioScaleOf_pos r
  have hP := pow10Of_pos r
  set x := r / pow10Of r / stepRatioScaleOf r with hx
  have hxpos : 0 < ⌈x⌉ := Int.ceil_pos.2 (div_pos (div_pos hr hP) hS)
  have hle : (cf : ℚ) ≤ ((⌈x⌉ + (cf : ℤ) : ℤ) : ℚ) := by
    push_cast
    have : (0 : ℚ) < (⌈x⌉ : ℚ) := by exact_mod_cast hxpos
    linarith
  have hmain : (cf : ℚ) * (stepRatioScaleOf r * pow10Of r)
      ≤ ((⌈x⌉ + (cf : ℤ) : ℤ) : ℚ) * stepRatioScaleOf r * pow10Of r := by
    rw [← mul_assoc]
    apply mul_le_mul_of_nonneg_right _ hP.le
    exact mul_le_mul_of_nonneg_right hle hS.le
  split
  · exact hmain
  · exact le_trans hmain (Int.le_ceil _)

theorem getFormatStep_mono (r : ℚ) (ad : Bool) (cf cf' : ℕ) (hr : 0 < r) (h : cf ≤ cf') :
    getFormatStep r ad cf ≤ getFormatStep r ad cf' := by
  rw [getFormatStep_eq r ad cf hr, getFormatStep_eq r ad cf' hr]
  have hS := stepRatioScaleOf_pos r
  have hP := pow10Of_pos r
  set x := r / pow10Of r / stepRatioScaleOf r with hx
  have hle : ((⌈x⌉ + (cf : ℤ) : ℤ) : ℚ) * stepRatioScaleOf r * pow10Of r
      ≤ ((⌈x⌉ + (cf' : ℤ) : ℤ) : ℚ) * stepRatioScaleOf r * pow10Of r := by
    apply mul_le_mul_of_nonneg_right _ hP.le
    apply mul_le_mul_of_nonneg_right _ hS.le
    push_cast
    have : (cf : ℚ) ≤ (cf' : ℚ) := by exact_mod_cast h
    linarith
  split
  · exact hle
  · exact_mod_cast Int.ceil_le_ceil hle

/-! ### The double-mod anchor alignment -/

theorem jsTrunc_of_nonneg (q : ℚ) (h : 0 ≤ q) : jsTrunc q = ⌊q⌋ := if_pos h

theorem jsTrunc_of_neg (q : ℚ) (h : q < 0) : jsTrunc q = ⌈q⌉ := if_neg (not_le.2 h)

theorem jsMod_small (v b : ℚ) (hb : 0 < b) (h0 : 0 ≤ v) (h1 : v < b) : jsMod v b = v := by
  have hfl : ⌊v / b⌋ = 0 := by
    rw [Int.floor_eq_iff]
    constructor
    · push_cast
      exact div_nonneg h0 hb.le
    · push_cast
      linarith [(div_lt_one hb).2 h1]
  rw [jsMod, jsTrunc_of_nonneg _ (div_nonneg h0 hb.le), hfl]
  push_cast
  ring

theorem jsMod_medium (v b : ℚ) (hb : 0 < b) (h0 : b ≤ v) (h1 : v < 2 * b) :
    jsMod v b = v - b := by
  have hfl : ⌊v / b⌋ = 1 := by
    rw [Int.floor_eq_iff]
    constructor
    · push_cast
      rw [le_div_iff₀ hb]
      linarith
    · push_cast
      rw [div_lt_iff₀ hb]
      linarith
  rw [jsMod, jsTrunc_of_nonneg _ (div_nonneg (by linarith) hb.le), hfl]
  push_cast
  ring

/-- For a positive modulus, the source's sign-correcting double-mod
`((a % b) + b) % b` computes the floor-based remainder `a - b * ⌊a / b⌋`. -/
theorem doubleMod_eq (a b : ℚ) (hb : 0 < b) :
    jsMod (jsMod a b + b) b = a - b * ((⌊a / b⌋ : ℤ) : ℚ) := by
  have hbd : b * (a / b) = a := by field_simp
  set F := a - b * ((⌊a / b⌋ : ℤ) : ℚ) with hF
  have hF0 : 0 ≤ F := by
    rw [hF]
    nlinarith [Int.floor_le (a / b)]
  have hFb : F < b := by
    rw [hF]
    nlinarith [Int.lt_floor_add_one (a / b)]
  rcases le_or_lt 0 a with ha | ha
  · have h1 : jsMod a b = F := by
      rw [jsMod, jsTrunc_of_nonneg _ (div_nonneg ha hb.le)]
    calc jsMod (jsMod a b + b) b = jsMod (F + b) b := by rw [h1]
      _ = F + b - b := jsMod_medium (F + b) b hb (by linarith) (by linarith)
      _ = F := by ring
  · have hdneg : a / b < 0 := div_neg_of_neg_of_pos ha hb
    have hcl : ⌈a / b⌉ = ⌊a / b⌋ ∨ ⌈a / b⌉ = ⌊a / b⌋ + 1 := by
      have h1 := Int.floor_le_ceil (a / b)
      have h2 := Int.ceil_le_floor_add_one (a / b)
      omega
    rcases hcl with hc | hc
    · have h1 : jsMod a b = F := by
        rw [jsMod, jsTrunc_of_neg _ hdneg, hc]
      calc jsMod (jsMod a b + b) b = jsMod (F + b) b := by rw [h1]
        _ = F + b - b := jsMod_medium (F + b) b hb (by linarith) (by linarith)
        _ = F := by ring
    · have h1 : jsMod a b = F - b := by
        rw [jsMod, jsTrunc_of_neg _ hdneg, hc, hF]
        push_cast
        ring
      rw [h1, show F - b + b = F from by ring]
      exact jsMod_small F b hb hF0 hFb

/-! ### Scale-count analysis for the step solver -/

theorem middleOf_straddle (mn mx step : ℚ) (h : mn ≤ 0 ∧ 0 ≤ mx) :
    middleOf mn mx step = 0 := by
  unfold middleOf
  rw [if_pos h]

theorem middleOf_not_straddle (mn mx step : ℚ) (h : ¬(mn ≤ 0 ∧ 0 ≤ mx)) (hstep : 0 < step) :
    middleOf mn mx step = step * ((⌊(mn + mx) / 2 / step⌋ : ℤ) : ℚ) := by
  unfold middleOf
  rw [if_neg h]
  show (mn + mx) / 2 - jsMod (jsMod ((mn + mx) / 2) step + step) step = _
  rw [doubleMod_eq ((mn + mx) / 2) step hstep]
  ring

theorem scaleCountOf_le (mn mx step : ℚ) (hlt : mn < mx)
    (h1 : |mn| < step) (h2 : |mx| < step) :
    scaleCountOf mn mx step ≤ 3 ∧
    (¬(mn ≤ 0 ∧ 0 ≤ mx) → scaleCountOf mn mx step ≤ 2) ∧
    ((mn = 0 ∨ mx = 0) → scaleCountOf mn mx step ≤ 2) := by
  have hstep : 0 < step := lt_of_le_of_lt (abs_nonneg mn) h1
  have hmn1 : -step < mn := (abs_lt.1 h1).1
  have hmn2 : mn < step := (abs_lt.1 h1).2
  have hmx1 : -step < mx := (abs_lt.1 h2).1
  have hmx2 : mx < step := (abs_lt.1 h2).2
  by_cases hstr : mn ≤ 0 ∧ 0 ≤ mx
  · have hmid := middleOf_straddle mn mx step hstr
    have hb0 : 0 ≤ belowCountOf mn mx step := by
      unfold belowCountOf
      rw [hmid]
      apply Int.ceil_nonneg
      apply div_nonneg _ hstep.le
      linarith [hstr.1]
    have hb1 : belowCountOf mn mx step ≤ 1 := by
      unfold belowCountOf
      rw [hmid, Int.ceil_le]
      push_cast
      rw [div_le_one hstep]
      linarith
    have hu0 : 0 ≤ upCountOf mn mx step := by
      unfold upCountOf
      rw [hmid]
      apply Int.ceil_nonneg
      apply div_nonneg _ hstep.le
      linarith [hstr.2]
    have hu1 : upCountOf mn mx step ≤ 1 := by
      unfold upCountOf
      rw [hmid, Int.ceil_le]
      push_cast
      rw [div_le_one hstep]
      linarith
    refine ⟨by unfold scaleCountOf; omega, fun h => absurd hstr h, fun h => ?_⟩
    rcases h with h | h
    · have hb0' : belowCountOf mn mx step ≤ 0 := by
        unfold belowCountOf
        rw [hmid, Int.ceil_le, h]
        push_cast
        simp
      unfold scaleCountOf
      omega
    · have hu0' : upCountOf mn mx step ≤ 0 := by
        unfold upCountOf
        rw [hmid, Int.ceil_le, h]
        push_cast
        simp
      unfold scaleCountOf
      omega
  · have hmid := middleOf_not_straddle mn mx step hstr hstep
    rcases not_and_or.1 hstr with hmn | hmx
    · -- 0 < mn : positive interval
      have hmn0 : 0 < mn := not_le.1 hmn
      have hmidval : (⌊(mn + mx) / 2 / step⌋ : ℤ) = 0 := by
        rw [Int.floor_eq_iff]
        refine ⟨?_, ?_⟩
        · push_cast
          apply div_nonneg _ hstep.le
          linarith
        · push_cast
          rw [zero_add, div_lt_one hstep]
          linarith
      rw [hmidval] at hmid
      push_cast at hmid
      rw [mul_zero] at hmid
      have hb : belowCountOf mn mx step = 0 := by
        unfold belowCountOf
        rw [hmid, Int.ceil_eq_iff]
        refine ⟨?_, ?_⟩
        · push_cast
          rw [lt_div_iff₀ hstep]
          linarith
        · push_cast
          rw [div_le_iff₀ hstep]
          linarith
      have hu : upCountOf mn mx step = 1 := by
        unfold upCountOf
        rw [hmid, Int.ceil_eq_iff]
        refine ⟨?_, ?_⟩
        · push_cast
          rw [lt_div_iff₀ hstep]
          linarith
        · push_cast
          rw [div_le_iff₀ hstep]
          linarith
      have hsc : scaleCountOf mn mx step = 2 := by
        unfold scaleCountOf
        omega
      exact ⟨by omega, fun _ => by omega, fun _ => by omega⟩
    · -- mx < 0 : negative interval
      have hmx0 : mx < 0 := not_le.1 hmx
      have hmidval : (⌊(mn + mx) / 2 / step⌋ : ℤ) = -1 := by
        rw [Int.floor_eq_iff]
        refine ⟨?_, ?_⟩
        · push_cast
          rw [le_div_iff₀ hstep]
          linarith
        · push_cast
          rw [div_lt_iff₀ hstep]
          linarith
      rw [hmidval] at hmid
      push_cast at hmid
      have hmid2 : middleOf mn mx step = -step := by
        rw [hmid]
        ring
      have hb : belowCountOf mn mx step = 0 := by
        unfold belowCountOf
        rw [hmid2, Int.ceil_eq_iff]
        refine ⟨?_, ?_⟩
        · push_cast
          rw [lt_div_iff₀ hstep]
          linarith
        · push_cast
          rw [div_le_iff₀ hstep]
          linarith
      have hu : upCountOf mn mx step = 1 := by
        unfold upCountOf
        rw [hmid2, Int.ceil_eq_iff]
        refine ⟨?_, ?_⟩
        · push_cast
          rw [lt_div_iff₀ hstep]
          linarith
        · push_cast
          rw [div_le_iff₀ hstep]
          linarith
      have hsc : scaleCountOf mn mx step = 2 := by
        unfold scaleCountOf
        omega
      exact ⟨by omega, fun _ => by omega, fun _ => by omega⟩

theorem exists_big_step (r : ℚ) (ad : Bool) (B : ℚ) (hr : 0 < r) :
    ∃ cf : ℕ, B < getFormatStep r ad cf := by
  have hcpos : 0 < stepRatioScaleOf r * pow10Of r :=
    mul_pos (stepRatioScaleOf_pos r) (pow10Of_pos r)
  obtain ⟨cf, hcf⟩ := exists_nat_gt (B / (stepRatioScaleOf r * pow10Of r))
  refine ⟨cf, ?_⟩
  have hB : B < (cf : ℚ) * (stepRatioScaleOf r * pow10Of r) := by
    rw [div_lt_iff₀ hcpos] at hcf
    linarith
  exact lt_of_lt_of_le hB (getFormatStep_cf_lb r ad cf hr)

theorem roughStepOf_pos (mn mx : ℚ) (tc : ℤ) (hlt : mn < mx) (htc : 2 ≤ tc) :
    0 < roughStepOf mn mx tc := by
  unfold roughStepOf
  apply div_pos (by linarith)
  have h : (2 : ℚ) ≤ (tc : ℚ) := by exact_mod_cast htc
  linarith

theorem exists_scaleCount_le (mn mx : ℚ) (tc : ℤ) (ad : Bool)
    (hlt : mn < mx) (htc : 2 ≤ tc) (hside : 3 ≤ tc ∨ ¬(mn < 0 ∧ 0 < mx)) :
    ∃ cf : ℕ, scaleCountOf mn mx (stepOf mn mx tc ad cf) ≤ tc := by
  have hrough := roughStepOf_pos mn mx tc hlt htc
  obtain ⟨cf, hcf⟩ := exists_big_step (roughStepOf mn mx tc) ad (max |mn| |mx|) hrough
  refine ⟨cf, ?_⟩
  have h1 : |mn| < stepOf mn mx tc ad cf := lt_of_le_of_lt (le_max_left _ _) hcf
  have h2 : |mx| < stepOf mn mx tc ad cf := lt_of_le_of_lt (le_max_right _ _) hcf
  obtain ⟨hb3, hb2, hb2'⟩ := scaleCountOf_le mn mx (stepOf mn mx tc ad cf) hlt h1 h2
  rcases hside with h3 | hns
  · exact le_trans hb3 h3
  · by_cases hstr : mn ≤ 0 ∧ 0 ≤ mx
    · have hz : mn = 0 ∨ mx = 0 := by
        rcases not_and_or.1 hns with h | h
        · exact Or.inl (le_antisymm hstr.1 (not_lt.1 h))
        · exact Or.inr (le_antisymm (not_lt.1 h) hstr.2)
      exact le_trans (hb2' hz) htc
    · exact le_trans (hb2 hstr) htc

/-! ### Unfolding and termination of `calculateStepAux` -/

theorem calculateStepAux_succ (mn mx : ℚ) (tc : ℤ) (ad : Bool) (cf fuel : ℕ) :
    calculateStepAux mn mx tc ad cf (fuel + 1) =
      if tc = 1 then some ⟨0, 0, 0⟩
      else
        if tc < scaleCountOf mn mx (stepOf mn mx tc ad cf) then
          calculateStepAux mn mx tc ad (cf + 1) fuel
        else if scaleCountOf mn mx (stepOf mn mx tc ad cf) < tc then
          if 0 < mx then
            some ⟨stepOf mn mx tc ad cf,
              middleOf mn mx (stepOf mn mx tc ad cf)
                - (belowCountOf mn mx (stepOf mn mx tc ad cf) : ℚ)
                  * stepOf mn mx tc ad cf,
              middleOf mn mx (stepOf mn mx tc ad cf)
                + ((upCountOf mn mx (stepOf mn mx tc ad cf)
                    + (tc - scaleCountOf mn mx (stepOf mn mx tc ad cf)) : ℤ) : ℚ)
                  * stepOf mn mx tc ad cf⟩
          else
            some ⟨stepOf mn mx tc ad cf,
              middleOf mn mx (stepOf mn mx tc ad cf)
                - ((belowCountOf mn mx (stepOf mn mx tc ad cf)
                    + (tc - scaleCountOf mn mx (stepOf mn mx tc ad cf)) : ℤ) : ℚ)
                  * stepOf mn mx tc ad cf,
              middleOf mn mx (stepOf mn mx tc ad cf)
                + (upCountOf mn mx (stepOf mn mx tc ad cf) : ℚ)
                  * stepOf mn mx tc ad cf⟩
        else
          some ⟨stepOf mn mx tc ad cf,
            middleOf mn mx (stepOf mn mx tc ad cf)
              - (belowCountOf mn mx (stepOf mn mx tc ad cf) : ℚ)
                * stepOf mn mx tc ad cf,
            middleOf mn mx (stepOf mn mx tc ad cf)
              + (upCountOf mn mx (stepOf mn mx tc ad cf) : ℚ)
                * stepOf mn mx tc ad cf⟩ := rfl

theorem calculateStepAux_isSome (mn mx : ℚ) (tc : ℤ) (ad : Bool) (htc : tc ≠ 1) :
    ∀ k cf, scaleCountOf mn mx (stepOf mn mx tc ad (cf + k)) ≤ tc →
      (calculateStepAux mn mx tc ad cf (k + 1)).isSome := by
  intro k
  induction k with
  | zero =>
    intro cf h
    rw [calculateStepAux_succ, if_neg htc,
      if_neg (not_lt.2 (by simpa using h))]
    split
    · split <;> simp
    · simp
  | succ n ih =>
    intro cf h
    rw [calculateStepAux_succ, if_neg htc]
    split
    · exact ih (cf + 1) (by rw [show cf + 1 + n = cf + (n + 1) from by omega]; exact h)
    · split
      · split <;> simp
      · simp

theorem calculateStepAux_neg_one_one :
    ∀ fuel cf, calculateStepAux (-1) 1 2 true cf fuel = none := by
  intro fuel
  induction fuel with
  | zero => intro cf; rfl
  | succ n ih =>
    intro cf
    rw [calculateStepAux_succ, if_neg (by norm_num)]
    have hstep : 0 < stepOf (-1) 1 2 true cf := by
      apply getFormatStep_pos
      apply roughStepOf_pos <;> norm_num
    have hmid : middleOf (-1) 1 (stepOf (-1) 1 2 true cf) = 0 :=
      middleOf_straddle _ _ _ (by norm_num)
    have hb : 1 ≤ belowCountOf (-1) 1 (stepOf (-1) 1 2 true cf) := by
      unfold belowCountOf
      rw [hmid]
      apply Int.ceil_pos.2
      apply div_pos _ hstep
      norm_num
    have hu : 1 ≤ upCountOf (-1) 1 (stepOf (-1) 1 2 true cf) := by
      unfold upCountOf
      rw [hmid]
      apply Int.ceil_pos.2
      apply div_pos _ hstep
      norm_num
    rw [if_pos (by unfold scaleCountOf; omega)]
    exact ih (cf + 1)

/-- Invariant of the solver on a zero-straddling interval: the result has a
positive step, and `tickMin`/`tickMax` are integer multiples of the step on
either side of the zero anchor whose indices sum to `tickCount - 1`. -/
theorem calculateStepAux_straddle_inv (mn mx : ℚ) (tc : ℤ) (ad : Bool)
    (h1 : mn ≤ 0) (h2 : 0 ≤ mx) (hlt : mn < mx) (htc : 2 ≤ tc) :
    ∀ fuel cf r, calculateStepAux mn mx tc ad cf fuel = some r →
      0 < r.step ∧ ∃ b u : ℤ, 0 ≤ b ∧ 0 ≤ u ∧ b + u = tc - 1 ∧
        r.tickMin = -((b : ℚ) * r.step) ∧ r.tickMax = (u : ℚ) * r.step := by
  intro fuel
  induction fuel with
  | zero => intro cf r hr; exact absurd hr (by simp [calculateStepAux])
  | succ n ih =>
    intro cf r hr
    rw [calculateStepAux_succ, if_neg (by omega)] at hr
    have hstep : 0 < stepOf mn mx tc ad cf :=
      getFormatStep_pos _ ad cf (roughStepOf_pos mn mx tc hlt htc)
    have hmid : middleOf mn mx (stepOf mn mx tc ad cf) = 0 :=
      middleOf_straddle _ _ _ ⟨h1, h2⟩
    have hbc : 0 ≤ belowCountOf mn mx (stepOf mn mx tc ad cf) := by
      unfold belowCountOf
      rw [hmid]
      apply Int.ceil_nonneg
      apply div_nonneg _ hstep.le
      linarith
    have huc : 0 ≤ upCountOf mn mx (stepOf mn mx tc ad cf) := by
      unfold upCountOf
      rw [hmid]
      apply Int.ceil_nonneg
      apply div_nonneg _ hstep.le
      linarith
    split at hr
    · exact ih (cf + 1) r hr
    · next hnr =>
      have hsc : scaleCountOf mn mx (stepOf mn mx tc ad cf) ≤ tc := not_lt.1 hnr
      split at hr
      · next hlt2 =>
        split at hr
        · next hmx =>
          -- pad above the anchor
          injection hr with hr
          subst hr
          refine ⟨hstep, belowCountOf mn mx (stepOf mn mx tc ad cf),
            upCountOf mn mx (stepOf mn mx tc ad cf)
              + (tc - scaleCountOf mn mx (stepOf mn mx tc ad cf)), hbc, ?_, ?_, ?_, ?_⟩
          · unfold scaleCountOf at hlt2 ⊢
            omega
          · unfold scaleCountOf
            ring
          · rw [hmid]
            push_cast
            ring
          · rw [hmid]
            push_cast
            ring
        · next hmx =>
          -- pad below the anchor (here mx = 0)
          injection hr with hr
          subst hr
          refine ⟨hstep, belowCountOf mn mx (stepOf mn mx tc ad cf)
              + (tc - scaleCountOf mn mx (stepOf mn mx tc ad cf)),
            upCountOf mn mx (stepOf mn mx tc ad cf), ?_, huc, ?_, ?_, ?_⟩
          · unfold scaleCountOf at hlt2 ⊢
            omega
          · unfold scaleCountOf
            ring
          · rw [hmid]
            push_cast
            ring
          · rw [hmid]
            push_cast
            ring
      · next hge =>
        have heq : scaleCountOf mn mx (stepOf mn mx tc ad cf) = tc := by omega
        injection hr with hr
        subst hr
        refine ⟨hstep, belowCountOf mn mx (stepOf mn mx tc ad cf),
          upCountOf mn mx (stepOf mn mx tc ad cf), hbc, huc, ?_, ?_, ?_⟩
        · unfold scaleCountOf at heq
          omega
        · rw [hmid]
          push_cast
          ring
        · rw [hmid]
          push_cast
          ring

/-! ### Unfolding the entry points on finite bounds -/

theorem ENum.blt_fin_fin (a b : ℚ) : ENum.blt (ENum.fin a) (ENum.fin b) = decide (a < b) := rfl

theorem getNiceTickValuesAux_fin_asc (mn mx : ℚ) (tc : ℤ) (ad : Bool) (fuel : ℕ)
    (h : mn < mx) :
    getNiceTickValuesAux (ENum.fin mn) (ENum.fin mx) tc ad fuel
      = (calculateStepAux mn mx (max tc 2) ad 0 fuel).map fun r =>
          (rangeStep r.tickMin (r.tickMax + 0.1 * r.step) r.step).map ENum.fin := by
  have hblt : ENum.blt (ENum.fin mx) (ENum.fin mn) = false := by
    rw [ENum.blt_fin_fin, decide_eq_false_iff_not]
    exact not_lt.2 h.le
  simp only [getNiceTickValuesAux, getValidIntervalE, hblt, Bool.false_eq_true, if_false,
    reduceCtorEq, or_self, if_neg h.ne]

theorem getNiceTickValuesAux_fin_desc (mn mx : ℚ) (tc : ℤ) (ad : Bool) (fuel : ℕ)
    (h : mx < mn) :
    getNiceTickValuesAux (ENum.fin mn) (ENum.fin mx) tc ad fuel
      = (calculateStepAux mx mn (max tc 2) ad 0 fuel).map fun r =>
          ((rangeStep r.tickMin (r.tickMax + 0.1 * r.step) r.step).map ENum.fin).reverse := by
  have hblt : ENum.blt (ENum.fin mx) (ENum.fin mn) = true := by
    rw [ENum.blt_fin_fin, decide_eq_true_iff]
    exact h
  simp only [getNiceTickValuesAux, getValidIntervalE, hblt, if_true, reduceCtorEq, or_self,
    if_neg h.ne, if_false]

theorem getTickValuesFixedDomain_fin_asc (mn mx : ℚ) (tc : ℤ) (h : mn < mx) :
    getTickValuesFixedDomain (ENum.fin mn) (ENum.fin mx) tc true
      = (rangeStep mn mx (getFormatStep ((mx - mn) / (((max tc 2 : ℤ) : ℚ) - 1)) true 0)
          ++ [mx]).map ENum.fin := by
  have hblt : ENum.blt (ENum.fin mx) (ENum.fin mn) = false := by
    rw [ENum.blt_fin_fin, decide_eq_false_iff_not]
    exact not_lt.2 h.le
  simp only [getTickValuesFixedDomain, getValidIntervalE, hblt, Bool.false_eq_true, if_false,
    reduceCtorEq, or_self, if_neg h.ne, Bool.true_eq_false]

theorem getTickValuesFixedDomain_fin_desc (mn mx : ℚ) (tc : ℤ) (h : mx < mn) :
    getTickValuesFixedDomain (ENum.fin mn) (ENum.fin mx) tc true
      = ((rangeStep mx mn (getFormatStep ((mn - mx) / (((max tc 2 : ℤ) : ℚ) - 1)) true 0)
          ++ [mn]).reverse).map ENum.fin := by
  have hblt : ENum.blt (ENum.fin mx) (ENum.fin mn) = true := by
    rw [ENum.blt_fin_fin, decide_eq_true_iff]
    exact h
  simp only [getTickValuesFixedDomain, getValidIntervalE, hblt, if_true, reduceCtorEq, or_self,
    if_neg h.ne, Bool.true_eq_false, if_false]

/-! ### Claim theorems -/

/-- Claim C8: for every start, stop and step (including step zero, negative,
or pathologically small relative to `stop - start`), `rangeStep` returns the
sequence `start, start + step, start + 2*step, …` of values strictly less
than `stop` — element `i` is `start + i*step` and satisfies the loop guard —
and the returned array never contains more than 100000 elements; moreover
when the cap was not the reason to stop, the next value already violates the
guard. -/
theorem rangeStep_spec (start stop step : ℚ) :
    (rangeStep start stop step).length ≤ 100000 ∧
    (∀ i : ℕ, i < (rangeStep start stop step).length →
      (rangeStep start stop step).getD i 0 = start + i * step ∧ start + i * step < stop) ∧
    ((rangeStep start stop step).length < 100000 →
      ¬(start + (rangeStep start stop step).length * step < stop)) :=
  ⟨rangeStepAux_length_le stop step 100000 start,
   fun i hi => rangeStepAux_getD stop step 100000 start i hi,
   rangeStepAux_stop_spec stop step 100000 start⟩

theorem rangeStep_spec_witness :
    (rangeStep 0 50 20).length ≤ 100000 ∧
    ((rangeStep 0 50 20).getD 1 0 = 0 + ((1 : ℕ) : ℚ) * 20 ∧
      (0 : ℚ) + ((1 : ℕ) : ℚ) * 20 < 50) ∧
    ¬((0 : ℚ) + ((rangeStep 0 50 20).length : ℚ) * 20 < 50) :=
  ⟨(rangeStep_spec 0 50 20).1,
   (rangeStep_spec 0 50 20).2.1 1 (by with_unfolding_all decide),
   (rangeStep_spec 0 50 20).2.2 (by with_unfolding_all decide)⟩

/-- Claim C10: for every finite `roughStep > 0`, `getFormatStep` returns a
value at least `roughStep`, and the returned step is monotonically
non-decreasing in the correction factor (with `roughStep` and
`allowDecimals` fixed). -/
theorem getFormatStep_ge_and_mono (roughStep : ℚ) (allowDecimals : Bool) (cf cf' : ℕ)
    (hr : 0 < roughStep) (hcf : cf ≤ cf') :
    roughStep ≤ getFormatStep roughStep allowDecimals cf ∧
    getFormatStep roughStep allowDecimals cf ≤ getFormatStep roughStep allowDecimals cf' :=
  ⟨getFormatStep_ge roughStep allowDecimals cf hr,
   getFormatStep_mono roughStep allowDecimals cf cf' hr hcf⟩

theorem getFormatStep_ge_and_mono_witness :
    (2 : ℚ) ≤ getFormatStep 2 true 0 ∧ getFormatStep 2 true 0 ≤ getFormatStep 2 true 3 :=
  getFormatStep_ge_and_mono 2 true 0 3 (by norm_num) (by norm_num)

/-- Claim C9: whenever `(max - min) / (tickCount - 1)` is non-finite (an
infinite bound makes `max - min` infinite, or `tickCount = 1` makes the
divisor zero), `calculateStep` returns the zero-step sentinel
`{step := 0, tickMin := 0, tickMax := 0}` without recursing: one unit of
fuel suffices and the correction factor is irrelevant. -/
theorem calculateStep_nonfinite_sentinel (minE maxE : ENum) (tickCount : ℤ)
    (allowDecimals : Bool) (cf fuel : ℕ)
    (h : roughStepIsFinite minE maxE tickCount = false) :
    calculateStepE minE maxE tickCount allowDecimals cf (fuel + 1) = some ⟨0, 0, 0⟩ := by
  cases minE with
  | fin a =>
    cases maxE with
    | fin b =>
      have htc : tickCount = 1 := by
        simpa [roughStepIsFinite] using h
      show calculateStepAux a b tickCount allowDecimals cf (fuel + 1) = some ⟨0, 0, 0⟩
      rw [calculateStepAux_succ, if_pos htc]
    | negInf => rfl
    | posInf => rfl
  | negInf => rfl
  | posInf => rfl

theorem calculateStep_nonfinite_sentinel_witness :
    calculateStepE ENum.negInf (ENum.fin 5) 4 true 0 1 = some ⟨0, 0, 0⟩ :=
  calculateStep_nonfinite_sentinel ENum.negInf (ENum.fin 5) 4 true 0 0 (by decide)

/-- Claim C7: `getNiceTickValues([-Infinity, 5], 4)` keeps the finite bound
in place and fills the remaining `tickCount - 1` slots with the infinite
value, giving `[-Infinity, -Infinity, -Infinity, 5]`; with the bounds
reversed the array is reversed.  The fuel is irrelevant: the infinite branch
never reaches the solver. -/
theorem getNiceTickValues_infinite (fuel : ℕ) :
    getNiceTickValuesAux ENum.negInf (ENum.fin 5) 4 true fuel
      = some [ENum.negInf, ENum.negInf, ENum.negInf, ENum.fin 5] ∧
    getNiceTickValuesAux (ENum.fin 5) ENum.negInf 4 true fuel
      = some [ENum.fin 5, ENum.negInf, ENum.negInf, ENum.negInf] :=
  ⟨by with_unfolding_all rfl, by with_unfolding_all rfl⟩

/-- Claim C6 (amended): `getNiceTickValues([5, 5], 4)` returns the 4-element
step-1 sequence `[4, 5, 6, 7]`, which carries the value 5 at the middle
index `⌊(4 - 1) / 2⌋ = 1` (not the sequence `[3, 4, 5, 6]` claimed, which
would put 5 at index 2). -/
theorem getNiceTickValues_5_5 (fuel : ℕ) :
    getNiceTickValuesAux (ENum.fin 5) (ENum.fin 5) 4 true fuel
      = some [ENum.fin 4, ENum.fin 5, ENum.fin 6, ENum.fin 7] := by
  with_unfolding_all rfl

/-- Counterexample to claim C6 as stated: the returned sequence is
`[4, 5, 6, 7]`, which differs from the claimed `[3, 4, 5, 6]`. -/
theorem getNiceTickValues_5_5_cex :
    getNiceTickValuesAux (ENum.fin 5) (ENum.fin 5) 4 true 0
      = some [ENum.fin 4, ENum.fin 5, ENum.fin 6, ENum.fin 7] ∧
    some [ENum.fin 4, ENum.fin 5, ENum.fin 6, ENum.fin 7]
      ≠ some [ENum.fin 3, ENum.fin 4, ENum.fin 5, ENum.fin 6] :=
  ⟨by with_unfolding_all rfl, by with_unfolding_all decide⟩

/-- Claim C2: `getNiceTickValues([0, 100], 6)` (decimals allowed) selects the
step 20 (which is one of the allowed `20` or `25`) and returns exactly
`[0, 20, 40, 60, 80, 100]`, covering 0..100 inclusive.  One unit of solver
fuel suffices, and extra fuel does not change the result. -/
theorem getNiceTickValues_0_100 (fuel : ℕ) :
    getNiceTickValuesAux (ENum.fin 0) (ENum.fin 100) 6 true (fuel + 1)
      = some [ENum.fin 0, ENum.fin 20, ENum.fin 40, ENum.fin 60, ENum.fin 80, ENum.fin 100] ∧
    (stepOf 0 100 6 true 0 = 20 ∨ stepOf 0 100 6 true 0 = 25) :=
  ⟨by with_unfolding_all rfl, Or.inl (by with_unfolding_all rfl)⟩

/-- Claim C1 (amended): the recursive search `calculateStep(min, max,
tickCount, allowDecimals, 0)` terminates for every finite `min < max` and
integer `tickCount ≥ 2` provided additionally `tickCount ≥ 3` or the
interval does not strictly straddle zero.  (In the excluded case
`tickCount = 2`, `min < 0 < max`, each recursion step keeps
`scaleCount ≥ 3 > tickCount`, so the recursion never terminates — see the
counterexample.)  Termination is stated as: some fuel makes the fuelled
solver return a result. -/
theorem calculateStep_terminates (mn mx : ℚ) (tickCount : ℤ) (allowDecimals : Bool)
    (hlt : mn < mx) (htc : 2 ≤ tickCount)
    (hside : 3 ≤ tickCount ∨ ¬(mn < 0 ∧ 0 < mx)) :
    ∃ fuel : ℕ, (calculateStepAux mn mx tickCount allowDecimals 0 fuel).isSome := by
  obtain ⟨cf, hcf⟩ := exists_scaleCount_le mn mx tickCount allowDecimals hlt htc hside
  exact ⟨cf + 1, calculateStepAux_isSome mn mx tickCount allowDecimals (by omega) cf 0
    (by simpa using hcf)⟩

theorem calculateStep_terminates_witness :
    ∃ fuel : ℕ, (calculateStepAux 0 100 6 true 0 fuel).isSome :=
  calculateStep_terminates 0 100 6 true (by norm_num) (by norm_num) (Or.inl (by norm_num))

/-- Counterexample to claim C1 as stated: at `min = -1`, `max = 1`,
`tickCount = 2` (an integer ≥ 2) with decimals allowed, the recursion never
reaches its base case — no amount of fuel makes the solver return. -/
theorem calculateStep_nonterminating_cex :
    ¬∃ fuel : ℕ, (calculateStepAux (-1) 1 2 true 0 fuel).isSome := by
  rintro ⟨fuel, h⟩
  rw [calculateStepAux_neg_one_one fuel 0] at h
  simp at h

/-- Claim C5: for finite `a ≠ b`, reversing the domain reverses the ticks:
`getNiceTickValues([a, b])` equals the element-wise reversal of
`getNiceTickValues([b, a])`, for every tickCount, allowDecimals and fuel
(both calls normalize to the same interval and consume the solver
identically). -/
theorem getNiceTickValues_reverse (a b : ℚ) (tickCount : ℤ) (allowDecimals : Bool)
    (fuel : ℕ) (hab : a ≠ b) :
    getNiceTickValuesAux (ENum.fin a) (ENum.fin b) tickCount allowDecimals fuel
      = Option.map List.reverse
          (getNiceTickValuesAux (ENum.fin b) (ENum.fin a) tickCount allowDecimals fuel) := by
  rcases lt_or_gt_of_ne hab with h | h
  · rw [getNiceTickValuesAux_fin_asc a b tickCount allowDecimals fuel h,
      getNiceTickValuesAux_fin_desc b a tickCount allowDecimals fuel h,
      Option.map_map]
    cases calculateStepAux a b (max tickCount 2) allowDecimals 0 fuel with
    | none => rfl
    | some r => simp [Function.comp, List.reverse_reverse]
  · rw [getNiceTickValuesAux_fin_desc a b tickCount allowDecimals fuel h,
      getNiceTickValuesAux_fin_asc b a tickCount allowDecimals fuel h,
      Option.map_map]
    cases calculateStepAux b a (max tickCount 2) allowDecimals 0 fuel with
    | none => rfl
    | some r => simp [Function.comp]

theorem getNiceTickValues_reverse_witness :
    getNiceTickValuesAux (ENum.fin 0) (ENum.fin 100) 6 true 1
      = Option.map List.reverse
          (getNiceTickValuesAux (ENum.fin 100) (ENum.fin 0) 6 true 1) :=
  getNiceTickValues_reverse 0 100 6 true 1 (by norm_num)

/-- Claim C4 (amended): with decimals allowed, every element of
`getTickValuesFixedDomain([min, max], tickCount, true)` lies within the
closed interval between `min` and `max`, and the last element of the
returned sequence equals `max` exactly.  (With `allowDecimals = false` the
post-hoc rounding can move the final tick off a non-integer `max` and
outside the domain — see the counterexample.) -/
theorem getTickValuesFixedDomain_bounds (mn mx : ℚ) (tickCount : ℤ) (hab : mn ≠ mx) :
    (∀ x ∈ getTickValuesFixedDomain (ENum.fin mn) (ENum.fin mx) tickCount true,
      ∃ q : ℚ, x = ENum.fin q ∧ min mn mx ≤ q ∧ q ≤ max mn mx) ∧
    (getTickValuesFixedDomain (ENum.fin mn) (ENum.fin mx) tickCount true).getLast?
      = some (ENum.fin mx) := by
  have hcount : (2 : ℚ) ≤ ((max tickCount 2 : ℤ) : ℚ) := by
    exact_mod_cast le_max_right tickCount 2
  rcases lt_or_gt_of_ne hab with h | h
  · rw [getTickValuesFixedDomain_fin_asc mn mx tickCount h]
    set st := getFormatStep ((mx - mn) / (((max tickCount 2 : ℤ) : ℚ) - 1)) true 0 with hst
    have hstpos : 0 < st := by
      rw [hst]
      apply getFormatStep_pos
      apply div_pos (by linarith)
      linarith
    constructor
    · intro x hx
      rcases List.mem_map.1 hx with ⟨q, hq, rfl⟩
      refine ⟨q, rfl, ?_, ?_⟩
      · rw [min_eq_left h.le]
        rcases List.mem_append.1 hq with hq1 | hq1
        · obtain ⟨⟨i, _, rfl⟩, _⟩ := mem_rangeStep _ _ _ _ hq1
          have h0 : (0 : ℚ) ≤ (i : ℚ) * st := mul_nonneg (by positivity) hstpos.le
          linarith
        · rw [List.mem_singleton] at hq1
          subst hq1
          exact h.le
      · rw [max_eq_right h.le]
        rcases List.mem_append.1 hq with hq1 | hq1
        · exact (mem_rangeStep _ _ _ _ hq1).2.le
        · rw [List.mem_singleton] at hq1
          subst hq1
          exact le_rfl
    · rw [List.getLast?_map, List.getLast?_concat]
      rfl
  · rw [getTickValuesFixedDomain_fin_desc mn mx tickCount h]
    set st := getFormatStep ((mn - mx) / (((max tickCount 2 : ℤ) : ℚ) - 1)) true 0 with hst
    have hstpos : 0 < st := by
      rw [hst]
      apply getFormatStep_pos
      apply div_pos (by linarith)
      linarith
    constructor
    · intro x hx
      rcases List.mem_map.1 hx with ⟨q, hq, rfl⟩
      rw [List.mem_reverse] at hq
      refine ⟨q, rfl, ?_, ?_⟩
      · rw [min_eq_right h.le]
        rcases List.mem_append.1 hq with hq1 | hq1
        · obtain ⟨⟨i, _, rfl⟩, _⟩ := mem_rangeStep _ _ _ _ hq1
          have h0 : (0 : ℚ) ≤ (i : ℚ) * st := mul_nonneg (by positivity) hstpos.le
          linarith
        · rw [List.mem_singleton] at hq1
          subst hq1
          exact h.le
      · rw [max_eq_left h.le]
        rcases List.mem_append.1 hq with hq1 | hq1
        · exact (mem_rangeStep _ _ _ _ hq1).2.le
        · rw [List.mem_singleton] at hq1
          subst hq1
          exact le_rfl
    · rw [List.getLast?_map, List.getLast?_reverse, List.head?_append,
        rangeStep_head mx mn st h]
      rfl

theorem getTickValuesFixedDomain_bounds_witness :
    (∀ x ∈ getTickValuesFixedDomain (ENum.fin 0) (ENum.fin 100) 6 true,
      ∃ q : ℚ, x = ENum.fin q ∧ min (0 : ℚ) 100 ≤ q ∧ q ≤ max (0 : ℚ) 100) ∧
    (getTickValuesFixedDomain (ENum.fin 0) (ENum.fin 100) 6 true).getLast?
      = some (ENum.fin 100) :=
  getTickValuesFixedDomain_bounds 0 100 6 (by norm_num)

/-- Counterexample to claim C4 as stated: with `allowDecimals = false` on the
domain `[0, 1.5]` the post-hoc rounding yields `[0, 2]`, whose last element
differs from the domain maximum `1.5`, and whose element `2` lies outside
`[0, 1.5]`. -/
theorem getTickValuesFixedDomain_round_cex :
    getTickValuesFixedDomain (ENum.fin 0) (ENum.fin (3 / 2)) 2 false
      = [ENum.fin 0, ENum.fin 2] ∧
    (getTickValuesFixedDomain (ENum.fin 0) (ENum.fin (3 / 2)) 2 false).getLast?
      ≠ some (ENum.fin (3 / 2)) ∧
    ¬((2 : ℚ) ≤ 3 / 2) :=
  ⟨by with_unfolding_all rfl, by with_unfolding_all decide, by norm_num⟩

/-- Claim C3 (amended): for finite `min ≤ 0 ≤ max` with `min < max` and a
tick count of at most 100000, any tick sequence `getNiceTickValues` returns
contains the exact value 0.  (Beyond 100000 the hard element cap of
`rangeStep` can cut the sequence off before it reaches zero, and for
`tickCount = 2` with `min < 0 < max` the solver does not terminate and no
sequence is returned at all.) -/
theorem getNiceTickValues_contains_zero (mn mx : ℚ) (tickCount : ℤ) (allowDecimals : Bool)
    (fuel : ℕ) (ticks : List ENum)
    (h1 : mn ≤ 0) (h2 : 0 ≤ mx) (hlt : mn < mx) (htc : tickCount ≤ 100000)
    (hres : getNiceTickValuesAux (ENum.fin mn) (ENum.fin mx) tickCount allowDecimals fuel
      = some ticks) :
    ENum.fin 0 ∈ ticks := by
  rw [getNiceTickValuesAux_fin_asc mn mx tickCount allowDecimals fuel hlt] at hres
  obtain ⟨r, hr, hticks⟩ := Option.map_eq_some'.1 hres
  subst hticks
  obtain ⟨hstep, b, u, hb0, hu0, hsum, hmin, hmax⟩ :=
    calculateStepAux_straddle_inv mn mx (max tickCount 2) allowDecimals h1 h2 hlt
      (le_max_right _ _) fuel 0 r hr
  apply List.mem_map.2
  refine ⟨0, ?_, rfl⟩
  have hbx : ((b.toNat : ℕ) : ℚ) = (b : ℚ) := by exact_mod_cast Int.toNat_of_nonneg hb0
  have hzero : r.tickMin + ((b.toNat : ℕ) : ℚ) * r.step = 0 := by
    rw [hmin, hbx]
    ring
  have hcap : max tickCount 2 ≤ 100000 := max_le htc (by norm_num)
  have hblt : b.toNat < 100000 := by omega
  have hend : r.tickMin + ((b.toNat : ℕ) : ℚ) * r.step < r.tickMax + 0.1 * r.step := by
    rw [hzero, hmax]
    have hu : (0 : ℚ) ≤ (u : ℚ) := by exact_mod_cast hu0
    nlinarith
  rw [← hzero]
  exact rangeStep_mem r.tickMin (r.tickMax + 0.1 * r.step) r.step hstep b.toNat hblt hend

theorem getNiceTickValues_contains_zero_witness :
    ENum.fin 0 ∈ [ENum.fin 0, ENum.fin 20, ENum.fin 40, ENum.fin 60, ENum.fin 80,
      ENum.fin 100] :=
  getNiceTickValues_contains_zero 0 100 6 true 1 _ (by norm_num) (by norm_num) (by norm_num)
    (by norm_num) (by with_unfolding_all rfl)

/-- Counterexample to claim C3 as stated: for `min = -100001`, `max = 0` and
`tickCount = 100002` the solver chooses step 1 with `tickMin = -100001`, but
`rangeStep`'s 100000-element cap cuts the sequence off at `-2`, so the
returned ticks do not contain 0 even though `min ≤ 0 ≤ max`. -/
theorem getNiceTickValues_zero_dropped_cex :
    ∃ ticks : List ENum,
      getNiceTickValuesAux (ENum.fin (-100001)) (ENum.fin 0) 100002 true 1 = some ticks ∧
      ENum.fin 0 ∉ ticks := by
  refine ⟨(rangeStep (-100001) ((0 : ℚ) + 0.1 * 1) 1).map ENum.fin, ?_, ?_⟩
  · rw [getNiceTickValuesAux_fin_asc _ _ _ _ _ (by norm_num)]
    have hcalc : calculateStepAux (-100001) 0 (max 100002 2) true 0 1
        = some ⟨1, -100001, 0⟩ := by with_unfolding_all rfl
    rw [hcalc]
    rfl
  · intro hmem
    rw [List.mem_map] at hmem
    obtain ⟨q, hq, hfin⟩ := hmem
    have hq0 : q = 0 := by injection hfin
    subst hq0
    obtain ⟨⟨i, hi, hval⟩, _⟩ := mem_rangeStep _ _ _ _ hq
    have hi1 : (i : ℚ) = 100001 := by linarith [hval]
    have hi2 : i = 100001 := by exact_mod_cast hi1
    omega
